import Mathlib

/-!
# RPGMakerXpEncryptor: the RGSSAD packer of `src/main.cpp`

A shallow embedding of the packer and the properties of its cipher, record
format, directory walker and `main`.

Conventions of the embedding.

* `char` buffers and `std::string`s are `List Nat`, one element per byte, the
  byte taken as its unsigned value `0..255` (`IsBytes`).  A store into a `char`
  keeps the low 8 bits, written `% 256`.
* `unsigned int` is a `Nat` below `2 ^ 32`; arithmetic that can wrap is reduced
  `% 2 ^ 32`.
* The global `KEY` is passed in and handed back explicitly; the output stream is
  the list of bytes written to it.
* `EncryptData` evaluates `tmp_key >> (i * 8)` with `i * 8 ≥ 32` from the fifth
  byte on.  C++ gives no value to a shift of a 32-bit operand by 32 or more, so
  the embedding takes the value of such a shift as a parameter `wide`; shifts by
  less than 32 are the ordinary ones.  Two instances are named: `shrZero` (all
  bits shifted out) and `shrMod32` (count taken modulo 32, as the x86 and ARM64
  shift instructions do).
* The file system is a tree of entries in enumeration order.  A library call
  that raises (`canonical` on a missing path, `directory_iterator` on a
  non-directory, `substr` beyond the string) ends the run, since nothing in the
  program catches it.
-/

namespace RGSSAD

/-! ## Cipher -/

/-- Initial value of the global, `unsigned int KEY = 0xdeadcafe;`. -/
def KEY0 : Nat := 0xdeadcafe

/-- The update `KEY = 7 * KEY + 3` on a 32-bit unsigned. -/
def nextKey (k : Nat) : Nat := (7 * k + 3) % 2 ^ 32

/-- Value of `x >> n` for a 32-bit unsigned `x`: defined by the language for
`n < 32`, and `wide x n` otherwise. -/
def shr32 (wide : Nat → Nat → Nat) (x n : Nat) : Nat :=
  if n < 32 then x >>> n else wide x n

/-- Over-wide shift that shifts every bit out. -/
def shrZero : Nat → Nat → Nat := fun _ _ => 0

/-- Over-wide shift that uses the count modulo 32. -/
def shrMod32 : Nat → Nat → Nat := fun x n => x >>> (n % 32)

/-- The loop of `EncryptData`, entered at index `i` with the local `tmp_key`.
The product `i * 8` is one of `size_t`, taken as 64 bits wide. -/
def EncryptData.loop (wide : Nat → Nat → Nat) : Nat → Nat → List Nat → List Nat
  | _, _, [] => []
  | i, tmp_key, b :: rest =>
    let key_index := i % 4
    let tmp_key := if i ≠ 0 ∧ key_index = 0 then (7 * tmp_key + 3) % 2 ^ 32 else tmp_key
    ((b ^^^ (shr32 wide tmp_key ((i * 8) % 2 ^ 64) &&& 0xff)) % 256)
      :: EncryptData.loop wide (i + 1) tmp_key rest

/-- Source `EncryptData(data, len)`: masks the buffer from a local copy of `KEY`;
the global is read and not written, so only the buffer is returned. -/
def EncryptData (wide : Nat → Nat → Nat) (data : List Nat) (KEY : Nat) : List Nat :=
  EncryptData.loop wide 0 KEY data

/-- Source `EncryptUInt(n)`: returns `n ^ KEY` and the advanced `KEY`. -/
def EncryptUInt (n KEY : Nat) : Nat × Nat :=
  (n ^^^ KEY, (7 * KEY + 3) % 2 ^ 32)

/-- Source `EncryptString(data, len)`: masks each byte with the low byte of
`KEY` and advances `KEY` after every byte; returns the buffer and the new `KEY`. -/
def EncryptString : List Nat → Nat → List Nat × Nat
  | [], KEY => ([], KEY)
  | b :: rest, KEY =>
    let r := EncryptString rest ((7 * KEY + 3) % 2 ^ 32)
    (((b ^^^ (KEY &&& 0xff)) % 256) :: r.1, r.2)

/-! ## Records -/

/-- Source `struct RGSSADSection`: the four fields, already masked. -/
structure RGSSADSection where
  path_length : Nat
  path : List Nat
  data_length : Nat
  data : List Nat
deriving DecidableEq, Repr

/-- The constructor `RGSSADSection(_path, _data)`, run with the global at `KEY`;
returns the section and the global afterwards.  The two
`static_cast<unsigned int>` are the `% 2 ^ 32`. -/
def RGSSADSection.new (wide : Nat → Nat → Nat) (_path _data : List Nat) (KEY : Nat) :
    RGSSADSection × Nat :=
  let pl := EncryptUInt (_path.length % 2 ^ 32) KEY
  let p := EncryptString _path pl.2
  let dl := EncryptUInt (_data.length % 2 ^ 32) p.2
  let d := EncryptData wide _data dl.2
  ({ path_length := pl.1, path := p.1, data_length := dl.1, data := d }, dl.2)

/-- Four bytes of an `unsigned int` as `fwrite` stores them (little-endian). -/
def le32 (n : Nat) : List Nat :=
  [n % 256, n / 256 % 256, n / 65536 % 256, n / 16777216 % 256]

/-- Source `RGSSADSection::WriteToFile`: the bytes appended to the stream. -/
def RGSSADSection.WriteToFile (s : RGSSADSection) : List Nat :=
  le32 s.path_length ++ s.path ++ le32 s.data_length ++ s.data

/-- The header written by `main`: `{'R','G','S','S','A','D','\0','\x01'}`. -/
def header : List Nat := [0x52, 0x47, 0x53, 0x53, 0x41, 0x44, 0x00, 0x01]

/-- A buffer of bytes: every element is below 256. -/
def IsBytes (l : List Nat) : Prop := ∀ b ∈ l, b < 256

instance (l : List Nat) : Decidable (IsBytes l) := by
  unfold IsBytes; infer_instance

/-! ## Writing an archive -/

/-- What a run carries: the global `KEY` and the bytes written to the output
stream so far. -/
structure Packer where
  KEY : Nat
  out : List Nat
deriving DecidableEq, Repr

/-- The two statements `RGSSADSection section(path, data);
section.WriteToFile(rgssad);` of `PackRgssad`. -/
def writeSection (wide : Nat → Nat → Nat) (path data : List Nat) (st : Packer) : Packer :=
  let r := RGSSADSection.new wide path data st.KEY
  { KEY := r.2, out := st.out ++ r.1.WriteToFile }

/-- One section after the other, for a list of (path, data) pairs. -/
def writeSections (wide : Nat → Nat → Nat) : List (List Nat × List Nat) → Packer → Packer
  | [], st => st
  | f :: rest, st => writeSections wide rest (writeSection wide f.1 f.2 st)

/-- The state of `main` once the header is written: `KEY` at its initial value. -/
def start : Packer := { KEY := KEY0, out := header }

/-- The archive of a list of files: header, then the sections in list order. -/
def archiveOf (wide : Nat → Nat → Nat) (files : List (List Nat × List Nat)) : List Nat :=
  (writeSections wide files start).out

/-! ## Reading an archive

The repository has no reader.  This one follows the description of the format:
skip the magic, then replay the cipher from the initial key. -/

/-- Little-endian value of a 4-byte field. -/
def fromLe32 : List Nat → Nat
  | [a, b, c, d] => a + 256 * b + 65536 * c + 16777216 * d
  | _ => 0

/-- Reader of the records: unmask a 4-byte length with `EncryptUInt`, that many
name bytes with `EncryptString`, the next 4-byte length with `EncryptUInt`, that
many data bytes with `EncryptData`; repeat until the input is exhausted.  `none`
when the input ends inside a record.  The first argument bounds the number of
records read. -/
def readRecords (wide : Nat → Nat → Nat) :
    Nat → Nat → List Nat → Option (List (List Nat × List Nat))
  | 0, _, bytes => if bytes = [] then some [] else none
  | fuel + 1, key, bytes =>
    if bytes = [] then some []
    else if bytes.length < 4 then none
    else
      let pl := EncryptUInt (fromLe32 (bytes.take 4)) key
      let bytes := bytes.drop 4
      if bytes.length < pl.1 then none
      else
        let p := EncryptString (bytes.take pl.1) pl.2
        let bytes := bytes.drop pl.1
        if bytes.length < 4 then none
        else
          let dl := EncryptUInt (fromLe32 (bytes.take 4)) p.2
          let bytes := bytes.drop 4
          if bytes.length < dl.1 then none
          else
            let d := EncryptData wide (bytes.take dl.1) dl.2
            (readRecords wide fuel dl.2 (bytes.drop dl.1)).map (fun l => (p.1, d) :: l)

/-- Reader of an archive: skips the 8 magic bytes and reads records from
`0xDEADCAFE`.  A record has at least 8 bytes, so the byte count bounds the
number of records. -/
def readArchive (wide : Nat → Nat → Nat) (bytes : List Nat) :
    Option (List (List Nat × List Nat)) :=
  readRecords wide bytes.length KEY0 (bytes.drop 8)

/-! ## Directory walker -/

/-- A directory entry as `PackRgssad` tells them apart: a subdirectory with its
entries in enumeration order, a regular file (`content = none` when `fopen_s`
fails on it), or an entry of another kind. -/
inductive Entry where
  | dir (name : List Nat) (children : List Entry)
  | file (name : List Nat) (content : Option (List Nat))
  | other (name : List Nat)
deriving Repr

/-- Name of an entry. -/
def Entry.name : Entry → List Nat
  | .dir n _ => n
  | .file n _ => n
  | .other n => n

/-- The path of an entry of directory `base`: `base\name`. -/
def entryPath (base name : List Nat) : List Nat := base ++ [92] ++ name

/-- The bytes `PackRgssad` reads from an opened file: `file_length` is the size
cast to `unsigned int`, and `fread` fills a buffer of that length (the seeks and
the read are taken to succeed). -/
def readFile (content : List Nat) : List Nat :=
  content.take (content.length % 2 ^ 32)

mutual
/-- Source `PackRgssad(base, trim_size, rgssad)` on the entries of `base`.
`some (b, st)`: it returned `b`, leaving `KEY` and the stream as in `st`;
`none`: `substr` raised `std::out_of_range` (`trim_size` beyond the path).
Console output is left out. -/
def PackRgssad (wide : Nat → Nat → Nat) (base : List Nat) (trim_size : Nat) :
    List Entry → Packer → Option (Bool × Packer)
  | [], st => some (true, st)
  | entry :: rest, st =>
    match PackRgssad.entry wide base trim_size entry st with
    | some (true, st1) => PackRgssad wide base trim_size rest st1
    | r => r
/-- Body of the loop of `PackRgssad` for one entry. -/
def PackRgssad.entry (wide : Nat → Nat → Nat) (base : List Nat) (trim_size : Nat) :
    Entry → Packer → Option (Bool × Packer)
  | .dir name children, st =>
    PackRgssad wide (entryPath base name) trim_size children st
  | .file name content, st =>
    let file_path := entryPath base name
    if file_path.length < trim_size then none
    else
      let trimmed_file_path := file_path.drop trim_size
      match content with
      | none => some (false, st)
      | some bytes => some (true, writeSection wide trimmed_file_path (readFile bytes) st)
  | .other _, st => some (true, st)
end

mutual
/-- Regular files below a directory, with their absolute paths, in depth-first
enumeration order: a subdirectory is descended before its later siblings. -/
def filesOf (base : List Nat) : List Entry → List (List Nat × Option (List Nat))
  | [] => []
  | entry :: rest => filesOf.entry base entry ++ filesOf base rest
/-- Regular files contributed by one entry. -/
def filesOf.entry (base : List Nat) : Entry → List (List Nat × Option (List Nat))
  | .dir name children => filesOf (entryPath base name) children
  | .file name content => [(entryPath base name, content)]
  | .other _ => []
end

/-- Every listed file opens. -/
def allOpen (fs : List (List Nat × Option (List Nat))) : Bool :=
  fs.all (fun f => f.2.isSome)

/-- The record of a regular file: its path without the first `trim_size` bytes,
and the bytes read from it. -/
def recordOf (trim_size : Nat) (f : List Nat × Option (List Nat)) : List Nat × List Nat :=
  (f.1.drop trim_size, match f.2 with | some c => readFile c | none => [])

/-- Records of the files that precede the first one that fails to open. -/
def recordsBeforeFailure (trim_size : Nat) (fs : List (List Nat × Option (List Nat))) :
    List (List Nat × List Nat) :=
  (fs.takeWhile (fun f => f.2.isSome)).map (recordOf trim_size)

/-! ## main -/

/-- What `main` meets outside the program. -/
structure Env where
  /-- The value of `argc`. -/
  argc : Nat
  /-- The string `canonical(absolute(argv[1]))`; `none` when `canonical` raises
  because the path does not exist. -/
  input_path : Option (List Nat)
  /-- The entries of the input directory. -/
  root : List Entry
  /-- Whether `fopen_s(&fp, output_path, "wb")` succeeds. -/
  output_opens : Bool

/-- What a run of `main` leaves behind. -/
structure Run where
  /-- The value `main` returned; `none` when it did not return. -/
  exit : Option Nat
  /-- An exception left `main` (nothing catches it). -/
  raised : Bool
  /-- The search directories on which `PackRgssad` was invoked, in order. -/
  walked : List (List Nat)
  /-- The global `KEY` and the bytes given to `fwrite` on the output stream. -/
  st : Packer
  /-- The output file was created by `fopen_s`. -/
  opened : Bool
  /-- Number of `fclose(fp)` calls made. -/
  closes : Nat
  /-- The call `fs::remove(output_path)` was made. -/
  removed : Bool
deriving DecidableEq, Repr

/-- The string `"Data"`. -/
def Data : List Nat := [68, 97, 116, 97]

/-- The string `"Graphics"`. -/
def Graphics : List Nat := [71, 114, 97, 112, 104, 105, 99, 115]

/-- The array `search_directories`: `"Data"`, `"Graphics"`. -/
def search_directories : List (List Nat) := [Data, Graphics]

/-- The entry of the input directory named `name`, if any. -/
def child (root : List Entry) (name : List Nat) : Option Entry :=
  root.find? (fun e => e.name == name)

/-- The call `PackRgssad(base, trim_size, fp)` on what stands at `base`:
`directory_iterator(base)` raises unless it is a directory. -/
def PackRgssad.top (wide : Nat → Nat → Nat) (base : List Nat) (trim_size : Nat) :
    Entry → Packer → Option (Bool × Packer)
  | .dir _ children, st => PackRgssad wide base trim_size children st
  | _, _ => none

/-- The loop of `main` over `search_directories`.  `canonical(input_path + "\\"
+ dir)` raises when the input directory has no entry `dir`; otherwise it is
taken to be `input_path\dir`.  When `PackRgssad` returns false the stream is
closed, the output file removed and the loop left. -/
def main.loop (wide : Nat → Nat → Nat) (input_path : List Nat) (root : List Entry)
    (trim_size : Nat) : List (List Nat) → Run → Run
  | [], r => r
  | dir :: rest, r =>
    match child root dir with
    | none => { r with raised := true }
    | some e =>
      match PackRgssad.top wide (entryPath input_path dir) trim_size e r.st with
      | none => { r with raised := true, walked := r.walked ++ [dir] }
      | some (true, st) =>
        main.loop wide input_path root trim_size rest
          { r with st := st, walked := r.walked ++ [dir] }
      | some (false, st) =>
        { r with st := st, walked := r.walked ++ [dir], closes := r.closes + 1,
                 removed := true }

/-- Source `main`.  Console output and the text of `output_path` are left out;
the output file is taken to lie outside the two walked directories. -/
def main (wide : Nat → Nat → Nat) (env : Env) : Run :=
  let idle : Run :=
    { exit := none, raised := false, walked := [], st := { KEY := KEY0, out := [] },
      opened := false, closes := 0, removed := false }
  if env.argc < 2 then { idle with exit := some 1 }
  else
    match env.input_path with
    | none => { idle with raised := true }
    | some input_path =>
      if env.output_opens = false then { idle with exit := some 1 }
      else
        let trim_size := input_path.length + 1
        let r := main.loop wide input_path env.root trim_size search_directories
          { idle with opened := true, st := start }
        if r.raised then r
        else { r with closes := r.closes + 1, exit := some 0 }

/-- A file stands at `output_path` after the run. -/
def Run.file_exists (r : Run) : Bool := r.opened && !r.removed

/-- The archive a run leaves at `output_path`: the bytes written, when `main`
returned with the file in place. -/
def Run.archive (r : Run) : Option (List Nat) :=
  if r.exit.isSome && r.file_exists then some r.st.out else none

/-! ## Inputs used as examples -/

/-- The path `Data\a.txt`. -/
def path_a_txt : List Nat := [68, 97, 116, 97, 92, 97, 46, 116, 120, 116]

/-- An input path, `C:\g`. -/
def path_game : List Nat := [67, 58, 92, 103]

/-- Input root holding `Data\a.txt` with content `hi`, and an empty `Graphics`. -/
def envScenario : Env :=
  { argc := 2, input_path := some path_game, output_opens := true,
    root := [.dir Data [.file [97, 46, 116, 120, 116] (some [104, 105])],
             .dir Graphics []] }

/-- Input root holding only an `Audio` directory. -/
def envAudioOnly : Env :=
  { argc := 2, input_path := some path_game, output_opens := true,
    root := [.dir [65, 117, 100, 105, 111] []] }

/-- Input root holding an `Audio` directory and empty `Data` and `Graphics`. -/
def envEmptyDirs : Env :=
  { argc := 2, input_path := some path_game, output_opens := true,
    root := [.dir [65, 117, 100, 105, 111] [], .dir Data [], .dir Graphics [.dir [97] []]] }

/-- Entries of a directory: a subdirectory `m` holding `a.txt` (content `hi`) and
an entry of another kind, then `b.txt`, which cannot be opened, then `c.txt`. -/
def entriesUnreadable : List Entry :=
  [.dir [109] [.file [97, 46, 116, 120, 116] (some [104, 105]), .other [120]],
   .file [98, 46, 116, 120, 116] none,
   .file [99, 46, 116, 120, 116] (some [1, 2, 3, 4, 5, 6])]

/-- Input root whose `Data` holds `entriesUnreadable`; `Graphics` holds `c.png`. -/
def envUnreadable : Env :=
  { argc := 2, input_path := some path_game, output_opens := true,
    root := [.dir Data entriesUnreadable,
             .dir Graphics [.file [99, 46, 112, 110, 103] (some [1, 2, 3, 4, 5, 6])]] }

/-- Input root whose `Data` holds `a.txt` and whose `Graphics` holds
`entriesUnreadable`. -/
def envUnreadableGraphics : Env :=
  { argc := 2, input_path := some path_game, output_opens := true,
    root := [.dir Data [.file [97, 46, 116, 120, 116] (some [104, 105])],
             .dir Graphics entriesUnreadable] }

/-! ## Lemmas on the cipher -/

theorem mask_lt (k : Nat) : k &&& 0xff < 256 :=
  Nat.and_lt_two_pow k (n := 8) (by decide)

theorem mask_eq_mod (k : Nat) : k &&& 0xff = k % 256 :=
  Nat.and_pow_two_sub_one_eq_mod k 8

theorem xor_byte_lt {b m : Nat} (hb : b < 256) (hm : m < 256) : b ^^^ m < 256 :=
  Nat.xor_lt_two_pow (n := 8) hb hm

theorem store_byte {b : Nat} (hb : b < 256) (k : Nat) :
    (b ^^^ (k &&& 0xff)) % 256 = b ^^^ (k &&& 0xff) :=
  Nat.mod_eq_of_lt (xor_byte_lt hb (mask_lt k))

theorem IsBytes.head {b : Nat} {l : List Nat} (h : IsBytes (b :: l)) : b < 256 :=
  h b (List.mem_cons_self b l)

theorem IsBytes.tail {b : Nat} {l : List Nat} (h : IsBytes (b :: l)) : IsBytes l :=
  fun x hx => h x (List.mem_cons_of_mem b hx)

theorem nextKey_lt (k : Nat) : nextKey k < 2 ^ 32 :=
  Nat.mod_lt _ (by decide)

theorem EncryptString_length (b : List Nat) (s : Nat) :
    (EncryptString b s).1.length = b.length := by
  induction b generalizing s with
  | nil => rfl
  | cons x xs ih => simp [EncryptString, ih]

theorem EncryptString_key (b : List Nat) (s : Nat) :
    (EncryptString b s).2 = nextKey^[b.length] s := by
  induction b generalizing s with
  | nil => rfl
  | cons x xs ih =>
    simp only [EncryptString, List.length_cons, Function.iterate_succ_apply]
    exact ih _

theorem EncryptString_get (b : List Nat) (hb : IsBytes b) (s i : Nat) (hi : i < b.length) :
    (EncryptString b s).1[i]? = some (b[i] ^^^ (nextKey^[i] s &&& 0xff)) := by
  induction b generalizing s i with
  | nil => simp at hi
  | cons x xs ih =>
    cases i with
    | zero => simp [EncryptString, store_byte hb.head]
    | succ j =>
      have hj : j < xs.length := by simpa using hi
      simp only [EncryptString, List.getElem?_cons_succ, List.getElem_cons_succ,
        Function.iterate_succ_apply]
      exact ih hb.tail _ j hj

theorem EncryptString_isBytes (b : List Nat) (s : Nat) : IsBytes (EncryptString b s).1 := by
  induction b generalizing s with
  | nil => intro x hx; simp [EncryptString] at hx
  | cons y ys ih =>
    intro x hx
    simp only [EncryptString, List.mem_cons] at hx
    rcases hx with rfl | hx
    · exact Nat.mod_lt _ (by decide)
    · exact ih _ x hx

theorem EncryptData_loop_length (wide : Nat → Nat → Nat) (d : List Nat) (i k : Nat) :
    (EncryptData.loop wide i k d).length = d.length := by
  induction d generalizing i k with
  | nil => rfl
  | cons x xs ih => simp [EncryptData.loop, ih]

theorem EncryptData_length (wide : Nat → Nat → Nat) (d : List Nat) (s : Nat) :
    (EncryptData wide d s).length = d.length :=
  EncryptData_loop_length wide d 0 s

/-- While the index stays below 4 the local key is the one the loop was entered
with and the shift is an ordinary one. -/
theorem EncryptData_loop_get_low (wide : Nat → Nat → Nat) (d : List Nat) (hb : IsBytes d)
    (s i j : Nat) (hj : j < d.length) (h4 : i + j < 4) :
    (EncryptData.loop wide i s d)[j]? = some (d[j] ^^^ ((s >>> (8 * (i + j))) &&& 0xff)) := by
  induction d generalizing i j with
  | nil => simp at hj
  | cons x xs ih =>
    have hk : (if i ≠ 0 ∧ i % 4 = 0 then (7 * s + 3) % 2 ^ 32 else s) = s := by
      rw [if_neg]; omega
    have hs : (i * 8) % 2 ^ 64 = i * 8 := Nat.mod_eq_of_lt (by omega)
    cases j with
    | zero =>
      have h32 : i * 8 < 32 := by omega
      simp only [EncryptData.loop, hk, hs, shr32, if_pos h32, store_byte hb.head,
        List.getElem?_cons_zero, List.getElem_cons_zero, Nat.add_zero, Nat.mul_comm 8 i]
    | succ j =>
      have hj2 : j < xs.length := by simpa using hj
      simp only [EncryptData.loop, hk, List.getElem?_cons_succ, List.getElem_cons_succ]
      rw [ih hb.tail (i + 1) j hj2 (by omega)]
      have : i + 1 + j = i + (j + 1) := by omega
      rw [this]


theorem nextKey_mod_256 (k : Nat) : nextKey k % 256 = (7 * (k % 256) + 3) % 256 := by
  unfold nextKey
  omega

theorem nextKey_congr {s t : Nat} (h : s % 256 = t % 256) :
    nextKey s % 256 = nextKey t % 256 := by
  rw [nextKey_mod_256, nextKey_mod_256, h]

/-- The bytes `EncryptString` produces depend on the low byte of the state only. -/
theorem EncryptString_congr (b : List Nat) {s t : Nat} (h : s % 256 = t % 256) :
    (EncryptString b s).1 = (EncryptString b t).1 := by
  induction b generalizing s t with
  | nil => rfl
  | cons x xs ih =>
    simp only [EncryptString, mask_eq_mod, h]
    have := ih (nextKey_congr h)
    simp only [nextKey] at this
    rw [this]

theorem unmask_byte {x : Nat} (hx : x < 256) (k : Nat) :
    ((x ^^^ (k &&& 0xff)) % 256 ^^^ (k &&& 0xff)) % 256 = x := by
  rw [store_byte hx, Nat.xor_cancel_right, Nat.mod_eq_of_lt hx]

/-- A second pass of `EncryptString` from the same state undoes the first. -/
theorem EncryptString_same_state (b : List Nat) (hb : IsBytes b) (s : Nat) :
    (EncryptString (EncryptString b s).1 s).1 = b := by
  induction b generalizing s with
  | nil => rfl
  | cons x xs ih =>
    simp only [EncryptString, unmask_byte hb.head]
    rw [ih hb.tail]

theorem EncryptString_same_state_key (b : List Nat) (s : Nat) :
    (EncryptString (EncryptString b s).1 s).2 = (EncryptString b s).2 := by
  rw [EncryptString_key, EncryptString_key, EncryptString_length]

/-- A second pass of `EncryptData` from the same state undoes the first,
whatever an over-wide shift yields. -/
theorem EncryptData_loop_twice (wide : Nat → Nat → Nat) (d : List Nat) (hb : IsBytes d)
    (i k : Nat) : EncryptData.loop wide i k (EncryptData.loop wide i k d) = d := by
  induction d generalizing i k with
  | nil => rfl
  | cons x xs ih =>
    simp only [EncryptData.loop, unmask_byte hb.head]
    rw [ih hb.tail]

theorem EncryptData_twice (wide : Nat → Nat → Nat) (d : List Nat) (hb : IsBytes d) (s : Nat) :
    EncryptData wide (EncryptData wide d s) s = d :=
  EncryptData_loop_twice wide d hb 0 s

/-! ## The cipher: claims -/

/-- C3, name masking rule.  With `nextKey x = (7 * x + 3) mod 2^32`: started in
state `s` on a byte sequence `b`, `EncryptString` yields a sequence of the same
length whose byte `i` is `b[i] XOR (nextKey^i(s) AND 0xFF)`, and leaves the
shared state at `nextKey^|b|(s)`. -/
theorem EncryptString_rule (b : List Nat) (hb : IsBytes b) (s : Nat) :
    (EncryptString b s).1.length = b.length ∧
    (∀ i (hi : i < b.length),
      (EncryptString b s).1[i]? = some (b[i] ^^^ (nextKey^[i] s &&& 0xff))) ∧
    (EncryptString b s).2 = nextKey^[b.length] s :=
  ⟨EncryptString_length b s, fun i hi => EncryptString_get b hb s i hi,
   EncryptString_key b s⟩

/-- The name masking rule on the path `Data\a.txt` from the initial state. -/
theorem EncryptString_rule_witness :
    IsBytes path_a_txt ∧
    ((EncryptString path_a_txt KEY0).1.length = path_a_txt.length ∧
     (∀ i (hi : i < path_a_txt.length),
       (EncryptString path_a_txt KEY0).1[i]?
         = some (path_a_txt[i] ^^^ (nextKey^[i] KEY0 &&& 0xff))) ∧
     (EncryptString path_a_txt KEY0).2 = nextKey^[path_a_txt.length] KEY0) :=
  ⟨by decide, EncryptString_rule path_a_txt (by decide) KEY0⟩

/-- C9, data masking of the first four bytes.  For every state `s`, data buffer
`d` and index `i` below both 4 and `|d|`, byte `i` of the output of `EncryptData`
is `d[i] XOR ((s >> (8 * i)) AND 0xFF)`, and the output is as long as `d`; this
holds whatever an over-wide shift yields. -/
theorem EncryptData_first_four (wide : Nat → Nat → Nat) (s : Nat) (d : List Nat)
    (hb : IsBytes d) (i : Nat) (hi : i < 4) (hd : i < d.length) :
    (EncryptData wide d s)[i]? = some (d[i] ^^^ ((s >>> (8 * i)) &&& 0xff)) ∧
    (EncryptData wide d s).length = d.length := by
  refine ⟨?_, EncryptData_length wide d s⟩
  have h := EncryptData_loop_get_low wide d hb s 0 i hd (by omega)
  rw [Nat.zero_add] at h
  exact h

/-- The fourth byte of a six-byte buffer masked from the initial state. -/
theorem EncryptData_first_four_witness :
    IsBytes [104, 105, 33, 10, 7, 8] ∧
    ((EncryptData shrMod32 [104, 105, 33, 10, 7, 8] KEY0)[3]?
        = some (10 ^^^ ((KEY0 >>> (8 * 3)) &&& 0xff)) ∧
     (EncryptData shrMod32 [104, 105, 33, 10, 7, 8] KEY0).length = 6) :=
  ⟨by decide,
   EncryptData_first_four shrMod32 KEY0 [104, 105, 33, 10, 7, 8] (by decide) 3
     (by decide) (by decide)⟩

/-- C2, record encoder state threading.  Built from state `s` for a path `p` and
data `d` shorter than `2^32` bytes, the section has
`path_length = |p| XOR s` and `data_length = |d| XOR nextKey^(|p|+1)(s)`, and the
shared state is left at `nextKey^(|p|+2)(s)`, whatever `d` is. -/
theorem RGSSADSection_new_state (wide : Nat → Nat → Nat) (s : Nat) (p d : List Nat)
    (hp : p.length < 2 ^ 32) (hd : d.length < 2 ^ 32) :
    (RGSSADSection.new wide p d s).1.path_length = p.length ^^^ s ∧
    (RGSSADSection.new wide p d s).1.data_length = d.length ^^^ nextKey^[p.length + 1] s ∧
    (RGSSADSection.new wide p d s).2 = nextKey^[p.length + 2] s := by
  have h1 : nextKey^[p.length] (nextKey s) = nextKey^[p.length + 1] s := rfl
  have h2 : nextKey (nextKey^[p.length + 1] s) = nextKey^[p.length + 2] s :=
    (Function.iterate_succ_apply' nextKey (p.length + 1) s).symm
  simp only [RGSSADSection.new, EncryptUInt, EncryptString_key, Nat.mod_eq_of_lt hp,
    Nat.mod_eq_of_lt hd]
  exact ⟨trivial, by rw [← h1]; rfl, by rw [← h2, ← h1]; rfl⟩

/-- The section of `Data\a.txt` with data `hi`, built from the initial state. -/
theorem RGSSADSection_new_state_witness :
    (path_a_txt.length < 2 ^ 32 ∧ [104, 105].length < 2 ^ 32) ∧
    (RGSSADSection.new shrZero path_a_txt [104, 105] KEY0).1.path_length
      = path_a_txt.length ^^^ KEY0 ∧
    (RGSSADSection.new shrZero path_a_txt [104, 105] KEY0).1.data_length
      = [104, 105].length ^^^ nextKey^[path_a_txt.length + 1] KEY0 ∧
    (RGSSADSection.new shrZero path_a_txt [104, 105] KEY0).2
      = nextKey^[path_a_txt.length + 2] KEY0 :=
  ⟨⟨by decide, by decide⟩,
   RGSSADSection_new_state shrZero KEY0 path_a_txt [104, 105] (by decide) (by decide)⟩

/-- C5 as stated fails: the path `Data\a.txt` masked from state `0xDEADCAFE` is
restored by a second pass from the different state `0xFE`. -/
theorem EncryptString_other_state_restores :
    ¬ ((EncryptString (EncryptString path_a_txt 0xdeadcafe).1 0xfe).1 = path_a_txt
        ↔ 0xfe = 0xdeadcafe) := by
  decide

/-- C5 amended.  For every non-empty byte sequence `b` and all states `s`, `t`:
`EncryptString` from `t` applied to the result of `EncryptString` on `b` from `s`
gives back `b` if and only if `t` and `s` have the same low byte. -/
theorem EncryptString_involution_iff (b : List Nat) (hne : b ≠ []) (hb : IsBytes b)
    (s t : Nat) :
    (EncryptString (EncryptString b s).1 t).1 = b ↔ t % 256 = s % 256 := by
  constructor
  · intro h
    cases b with
    | nil => exact absurd rfl hne
    | cons x xs =>
      simp only [EncryptString, List.cons.injEq] at h
      have hx := hb.head
      have h0 := h.1
      rw [store_byte hx, store_byte (xor_byte_lt hx (mask_lt s)), Nat.xor_assoc] at h0
      have h1 : x ^^^ ((s &&& 0xff) ^^^ (t &&& 0xff)) = x ^^^ 0 := by
        rw [Nat.xor_zero]; exact h0
      have h2 : (s &&& 0xff) ^^^ (t &&& 0xff) = (s &&& 0xff) ^^^ (s &&& 0xff) := by
        rw [Nat.xor_self]; exact Nat.xor_right_inj.mp h1
      have h3 := Nat.xor_right_inj.mp h2
      rw [mask_eq_mod, mask_eq_mod] at h3
      exact h3
  · intro h
    rw [EncryptString_congr _ h]
    exact EncryptString_same_state b hb s

/-- The path `Data\a.txt`, masked from `0xDEADCAFE` and unmasked from `0xFE`. -/
theorem EncryptString_involution_iff_witness :
    (path_a_txt ≠ [] ∧ IsBytes path_a_txt) ∧
    ((EncryptString (EncryptString path_a_txt 0xdeadcafe).1 0xfe).1 = path_a_txt
      ↔ 0xfe % 256 = 0xdeadcafe % 256) :=
  ⟨⟨by decide, by decide⟩,
   EncryptString_involution_iff path_a_txt (by decide) (by decide) 0xdeadcafe 0xfe⟩

/-! ## Round trip -/

theorem fromLe32_le32 {n : Nat} (h : n < 2 ^ 32) : fromLe32 (le32 n) = n := by
  simp only [le32, fromLe32]
  omega

theorem take_le32 (n : Nat) (l : List Nat) : (le32 n ++ l).take 4 = le32 n := rfl

theorem drop_le32 (n : Nat) (l : List Nat) : (le32 n ++ l).drop 4 = l := rfl

theorem le32_append_ne_nil (n : Nat) (l : List Nat) : le32 n ++ l ≠ [] := by
  simp [le32]

theorem le32_append_length (n : Nat) (l : List Nat) : ¬ (le32 n ++ l).length < 4 := by
  simp [le32]

theorem take_append_len {l₁ : List Nat} {n : Nat} (h : l₁.length = n) (l₂ : List Nat) :
    (l₁ ++ l₂).take n = l₁ := by
  subst h; exact List.take_left l₁ l₂

theorem drop_append_len {l₁ : List Nat} {n : Nat} (h : l₁.length = n) (l₂ : List Nat) :
    (l₁ ++ l₂).drop n = l₂ := by
  subst h; exact List.drop_left l₁ l₂

theorem not_length_append_lt {l₁ : List Nat} {n : Nat} (h : l₁.length = n) (l₂ : List Nat) :
    ¬ (l₁ ++ l₂).length < n := by
  rw [List.length_append]; omega

theorem EncryptUInt_twice {n k : Nat} : (EncryptUInt (EncryptUInt n k).1 k) = (n, nextKey k) := by
  simp only [EncryptUInt, Nat.xor_cancel_right]
  rfl

theorem EncryptUInt_lt {n k : Nat} (hn : n < 2 ^ 32) (hk : k < 2 ^ 32) :
    (EncryptUInt n k).1 < 2 ^ 32 :=
  Nat.xor_lt_two_pow hn hk

theorem EncryptUInt_key (n k : Nat) : (EncryptUInt n k).2 = nextKey k := rfl

theorem EncryptString_key_lt (b : List Nat) {s : Nat} (hs : s < 2 ^ 32) :
    (EncryptString b s).2 < 2 ^ 32 := by
  induction b generalizing s with
  | nil => exact hs
  | cons x xs ih => exact ih (nextKey_lt s)

theorem RGSSADSection_new_key_lt (wide : Nat → Nat → Nat) (p d : List Nat) (k : Nat) :
    (RGSSADSection.new wide p d k).2 < 2 ^ 32 :=
  nextKey_lt _

/-- Reading one written record: the reader returns the path and the data and
goes on with the state the writer left. -/
theorem readRecords_section (wide : Nat → Nat → Nat) (fuel key : Nat) (p d rest : List Nat)
    (hk : key < 2 ^ 32) (hp : p.length < 2 ^ 32) (hd : d.length < 2 ^ 32)
    (hpb : IsBytes p) (hdb : IsBytes d) :
    readRecords wide (fuel + 1) key ((RGSSADSection.new wide p d key).1.WriteToFile ++ rest)
      = (readRecords wide fuel (RGSSADSection.new wide p d key).2 rest).map
          (fun l => (p, d) :: l) := by
  have hk1 : nextKey key < 2 ^ 32 := nextKey_lt key
  have hk2 : (EncryptString p (nextKey key)).2 < 2 ^ 32 := EncryptString_key_lt p hk1
  have e1 : fromLe32 (le32 (EncryptUInt p.length key).1) = (EncryptUInt p.length key).1 :=
    fromLe32_le32 (EncryptUInt_lt hp hk)
  have e2 : fromLe32 (le32 (EncryptUInt d.length (EncryptString p (nextKey key)).2).1)
      = (EncryptUInt d.length (EncryptString p (nextKey key)).2).1 :=
    fromLe32_le32 (EncryptUInt_lt hd hk2)
  have lp : (EncryptString p (nextKey key)).1.length = p.length := EncryptString_length _ _
  have ld : (EncryptData wide d (nextKey (EncryptString p (nextKey key)).2)).length = d.length :=
    EncryptData_length _ _ _
  have shape : (RGSSADSection.new wide p d key).1.WriteToFile ++ rest
      = le32 (EncryptUInt p.length key).1 ++ ((EncryptString p (nextKey key)).1 ++
          (le32 (EncryptUInt d.length (EncryptString p (nextKey key)).2).1 ++
            (EncryptData wide d (nextKey (EncryptString p (nextKey key)).2) ++ rest))) := by
    simp only [RGSSADSection.WriteToFile, RGSSADSection.new, Nat.mod_eq_of_lt hp,
      Nat.mod_eq_of_lt hd, EncryptUInt_key, List.append_assoc]
  have key' : (RGSSADSection.new wide p d key).2 = nextKey (EncryptString p (nextKey key)).2 :=
    rfl
  rw [shape, key']
  rw [readRecords]
  simp only [le32_append_ne_nil, le32_append_length, if_false, take_le32, drop_le32, e1, e2,
    EncryptUInt_twice, not_length_append_lt lp, take_append_len lp, drop_append_len lp,
    EncryptString_same_state p hpb, EncryptString_same_state_key,
    not_length_append_lt ld, take_append_len ld, drop_append_len ld,
    EncryptData_twice wide d hdb]

theorem writeSections_out (wide : Nat → Nat → Nat) (files : List (List Nat × List Nat))
    (st : Packer) :
    (writeSections wide files st).out
      = st.out ++ (writeSections wide files { KEY := st.KEY, out := [] }).out := by
  induction files generalizing st with
  | nil => simp [writeSections]
  | cons f rest ih =>
    simp only [writeSections, writeSection]
    rw [ih, ih { KEY := _, out := [] ++ _ }]
    simp only [List.nil_append, List.append_assoc]

/-- Reading back the sections written from state `key`. -/
theorem readRecords_writeSections (wide : Nat → Nat → Nat)
    (files : List (List Nat × List Nat)) (fuel key : Nat) (hf : files.length ≤ fuel)
    (hk : key < 2 ^ 32)
    (hlen : ∀ f ∈ files, f.1.length < 2 ^ 32 ∧ f.2.length < 2 ^ 32)
    (hbytes : ∀ f ∈ files, IsBytes f.1 ∧ IsBytes f.2) :
    readRecords wide fuel key (writeSections wide files { KEY := key, out := [] }).out
      = some files := by
  induction files generalizing fuel key with
  | nil => cases fuel <;> simp [writeSections, readRecords]
  | cons f rest ih =>
    cases fuel with
    | zero => simp at hf
    | succ fuel =>
      have hl := hlen f (List.mem_cons_self f rest)
      have hb := hbytes f (List.mem_cons_self f rest)
      simp only [writeSections, writeSection, List.nil_append]
      rw [writeSections_out]
      simp only []
      rw [readRecords_section wide fuel key f.1 f.2 _ hk hl.1 hl.2 hb.1 hb.2]
      rw [ih fuel _ (by simpa using hf) (RGSSADSection_new_key_lt wide f.1 f.2 key)
        (fun g hg => hlen g (List.mem_cons_of_mem f hg))
        (fun g hg => hbytes g (List.mem_cons_of_mem f hg))]
      rfl

theorem writeSections_length (wide : Nat → Nat → Nat) (files : List (List Nat × List Nat))
    (st : Packer) : st.out.length + files.length ≤ (writeSections wide files st).out.length := by
  induction files generalizing st with
  | nil => simp [writeSections]
  | cons f rest ih =>
    simp only [writeSections, List.length_cons]
    have h := ih (writeSection wide f.1 f.2 st)
    have h2 : st.out.length + 1 ≤ (writeSection wide f.1 f.2 st).out.length := by
      simp [writeSection, RGSSADSection.WriteToFile, le32]
    omega

/-- C1, archive round trip.  For every list of files (path, data) whose paths and
data buffers are byte sequences shorter than `2^32`, the reader applied to the
archive (magic, then the sections in list order, the cipher threaded from
`0xDEADCAFE`) returns exactly the original list, in order; this holds whatever
an over-wide shift yields. -/
theorem readArchive_archiveOf (wide : Nat → Nat → Nat) (files : List (List Nat × List Nat))
    (hlen : ∀ f ∈ files, f.1.length < 2 ^ 32 ∧ f.2.length < 2 ^ 32)
    (hbytes : ∀ f ∈ files, IsBytes f.1 ∧ IsBytes f.2) :
    archiveOf wide files = header ++ (writeSections wide files { KEY := KEY0, out := [] }).out ∧
    readArchive wide (archiveOf wide files) = some files := by
  have hout : archiveOf wide files
      = header ++ (writeSections wide files { KEY := KEY0, out := [] }).out :=
    writeSections_out wide files start
  refine ⟨hout, ?_⟩
  have hfuel : files.length ≤ (archiveOf wide files).length := by
    have := writeSections_length wide files start
    unfold archiveOf
    omega
  unfold readArchive
  have hdrop : (archiveOf wide files).drop 8
      = (writeSections wide files { KEY := KEY0, out := [] }).out := by
    rw [hout]; rfl
  rw [hdrop]
  exact readRecords_writeSections wide files _ KEY0 hfuel (by decide) hlen hbytes

/-- The archive of the single file `Data\a.txt` with data `hi` reads back. -/
theorem readArchive_archiveOf_witness :
    archiveOf shrZero [(path_a_txt, [104, 105])]
      = header ++ (writeSections shrZero [(path_a_txt, [104, 105])]
          { KEY := KEY0, out := [] }).out ∧
    readArchive shrZero (archiveOf shrZero [(path_a_txt, [104, 105])])
      = some [(path_a_txt, [104, 105])] :=
  readArchive_archiveOf shrZero [(path_a_txt, [104, 105])] (by decide) (by decide)

/-! ## The walker -/

theorem writeSections_append (wide : Nat → Nat → Nat) (a b : List (List Nat × List Nat))
    (st : Packer) :
    writeSections wide (a ++ b) st = writeSections wide b (writeSections wide a st) := by
  induction a generalizing st with
  | nil => rfl
  | cons f rest ih =>
    rw [List.cons_append]
    simp only [writeSections]
    exact ih _

theorem allOpen_append (a b : List (List Nat × Option (List Nat))) :
    allOpen (a ++ b) = (allOpen a && allOpen b) := by
  simp [allOpen, List.all_append]

theorem recordsBeforeFailure_append_of_open (trim_size : Nat)
    (a b : List (List Nat × Option (List Nat))) (h : allOpen a = true) :
    recordsBeforeFailure trim_size (a ++ b)
      = recordsBeforeFailure trim_size a ++ recordsBeforeFailure trim_size b := by
  induction a with
  | nil => rfl
  | cons f rest ih =>
    simp only [allOpen, List.all_cons, Bool.and_eq_true] at h
    have ih2 := ih (by simpa [allOpen] using h.2)
    simp only [recordsBeforeFailure] at ih2 ⊢
    simp only [List.cons_append, List.takeWhile_cons, h.1, if_true, List.map_cons, ih2]

theorem recordsBeforeFailure_append_of_failure (trim_size : Nat)
    (a b : List (List Nat × Option (List Nat))) (h : allOpen a = false) :
    recordsBeforeFailure trim_size (a ++ b) = recordsBeforeFailure trim_size a := by
  induction a with
  | nil => simp [allOpen] at h
  | cons f rest ih =>
    simp only [recordsBeforeFailure, List.cons_append, List.takeWhile_cons]
    cases hf : f.2.isSome with
    | false => simp
    | true =>
      have h2 : allOpen rest = false := by
        simpa [allOpen, hf] using h
      have ih2 := ih h2
      simp only [recordsBeforeFailure] at ih2
      simp only [if_true, List.map_cons, ih2]

theorem recordsBeforeFailure_of_open (trim_size : Nat)
    (fs : List (List Nat × Option (List Nat))) (h : allOpen fs = true) :
    recordsBeforeFailure trim_size fs = fs.map (recordOf trim_size) := by
  unfold recordsBeforeFailure
  congr 1
  rw [List.takeWhile_eq_self_iff]
  intro f hf
  exact (List.all_eq_true.mp h) f hf

theorem entryPath_length (base name : List Nat) :
    (entryPath base name).length = base.length + 1 + name.length := by
  simp only [entryPath, List.length_append, List.length_cons, List.length_nil]

theorem filesOf_cons (base : List Nat) (e : Entry) (rest : List Entry) :
    filesOf base (e :: rest) = filesOf.entry base e ++ filesOf base rest := by
  rw [filesOf]

mutual
/-- What `PackRgssad` returns and writes, in terms of the files below `base`,
when no file path is shorter than `trim_size`. -/
theorem PackRgssad_spec (wide : Nat → Nat → Nat) (trim_size : Nat) :
    ∀ (es : List Entry) (base : List Nat) (st : Packer),
      (∀ f ∈ filesOf base es, trim_size ≤ f.1.length) →
      PackRgssad wide base trim_size es st
        = some (allOpen (filesOf base es),
               writeSections wide (recordsBeforeFailure trim_size (filesOf base es)) st)
  | [], base, st, _ => rfl
  | e :: rest, base, st, h => by
    rw [filesOf_cons] at h
    have he : ∀ f ∈ filesOf.entry base e, trim_size ≤ f.1.length :=
      fun f hf => h f (List.mem_append_left _ hf)
    have hr : ∀ f ∈ filesOf base rest, trim_size ≤ f.1.length :=
      fun f hf => h f (List.mem_append_right _ hf)
    rw [PackRgssad, PackRgssad_entry_spec wide trim_size e base st he, filesOf]
    cases hopen : allOpen (filesOf.entry base e) with
    | true =>
      simp only []
      rw [PackRgssad_spec wide trim_size rest base _ hr, allOpen_append, hopen,
        recordsBeforeFailure_append_of_open _ _ _ hopen, writeSections_append]
      rfl
    | false =>
      simp only []
      rw [allOpen_append, hopen, recordsBeforeFailure_append_of_failure _ _ _ hopen]
      rfl
/-- The same for one entry. -/
theorem PackRgssad_entry_spec (wide : Nat → Nat → Nat) (trim_size : Nat) :
    ∀ (e : Entry) (base : List Nat) (st : Packer),
      (∀ f ∈ filesOf.entry base e, trim_size ≤ f.1.length) →
      PackRgssad.entry wide base trim_size e st
        = some (allOpen (filesOf.entry base e),
               writeSections wide (recordsBeforeFailure trim_size (filesOf.entry base e)) st)
  | .dir name children, base, st, h => by
    rw [filesOf.entry] at h
    rw [PackRgssad.entry, filesOf.entry]
    exact PackRgssad_spec wide trim_size children (entryPath base name) st h
  | .file name none, base, st, h => by
    have hlen : ¬ (entryPath base name).length < trim_size := by
      have := h (entryPath base name, none) (by simp [filesOf.entry])
      simp only at this
      omega
    simp only [PackRgssad.entry, filesOf.entry, if_neg hlen]
    rfl
  | .file name (some c), base, st, h => by
    have hlen : ¬ (entryPath base name).length < trim_size := by
      have := h (entryPath base name, some c) (by simp [filesOf.entry])
      simp only at this
      omega
    simp only [PackRgssad.entry, filesOf.entry, if_neg hlen]
    rfl
  | .other _, base, st, _ => rfl
end

mutual
/-- Every file below `base` has a path longer than `base`. -/
theorem filesOf_path_length :
    ∀ (es : List Entry) (base : List Nat), ∀ f ∈ filesOf base es, base.length + 1 ≤ f.1.length
  | [], _, f, hf => by simp [filesOf] at hf
  | e :: rest, base, f, hf => by
    rw [filesOf_cons] at hf
    rcases List.mem_append.mp hf with h | h
    · exact filesOf_entry_path_length e base f h
    · exact filesOf_path_length rest base f h
/-- The same for one entry. -/
theorem filesOf_entry_path_length :
    ∀ (e : Entry) (base : List Nat), ∀ f ∈ filesOf.entry base e, base.length + 1 ≤ f.1.length
  | .dir name children, base, f, hf => by
    rw [filesOf.entry] at hf
    have := filesOf_path_length children (entryPath base name) f hf
    rw [entryPath_length] at this
    omega
  | .file name content, base, f, hf => by
    simp only [filesOf.entry, List.mem_singleton] at hf
    rw [hf]
    simp only [entryPath_length]
    omega
  | .other _, _, f, hf => by simp [filesOf.entry] at hf
end

/-- C10, walker short-circuit and order.  For every finite tree of entries, walked
with a `trim_size` that no file path falls short of (the caller contract of
`substr`), `PackRgssad` returns, and it returns false if and only if some regular
file of the tree fails to open.  It appends to the archive exactly the records of the
regular files that precede the first failing one in depth-first enumeration
order; when it returns true these are the records of all regular files, each
named by its absolute path without the first `trim_size` bytes. -/
theorem PackRgssad_walk (wide : Nat → Nat → Nat) (trim_size : Nat) (es : List Entry)
    (base : List Nat) (st : Packer) (h : ∀ f ∈ filesOf base es, trim_size ≤ f.1.length) :
    ∃ b st1, PackRgssad wide base trim_size es st = some (b, st1) ∧
      (b = false ↔ ∃ f ∈ filesOf base es, f.2 = none) ∧
      st1 = writeSections wide
        (((filesOf base es).takeWhile (fun f => f.2.isSome)).map (recordOf trim_size)) st ∧
      (b = true →
        st1 = writeSections wide ((filesOf base es).map (recordOf trim_size)) st) := by
  refine ⟨_, _, PackRgssad_spec wide trim_size es base st h, ?_, rfl, ?_⟩
  · constructor
    · intro hb
      have h2 : ¬ ∀ f ∈ filesOf base es, f.2.isSome = true := by
        intro hall
        have : allOpen (filesOf base es) = true := List.all_eq_true.mpr hall
        rw [hb] at this
        exact Bool.false_ne_true this
      push_neg at h2
      obtain ⟨f, hf, hn⟩ := h2
      refine ⟨f, hf, ?_⟩
      cases hf2 : f.2 with
      | none => rfl
      | some c => rw [hf2] at hn; exact absurd rfl hn
    · rintro ⟨f, hf, hn⟩
      cases hb : allOpen (filesOf base es) with
      | false => rfl
      | true =>
        have := (List.all_eq_true.mp hb) f hf
        rw [hn] at this
        exact absurd this (by decide)
  · intro hb
    rw [recordsBeforeFailure_of_open trim_size (filesOf base es) hb]

/-- The walk of the example tree, whose second file cannot be opened. -/
theorem PackRgssad_walk_witness :
    (∀ f ∈ filesOf (entryPath path_game Data) entriesUnreadable, 5 ≤ f.1.length) ∧
    ∃ b st1, PackRgssad shrZero (entryPath path_game Data) 5 entriesUnreadable start
        = some (b, st1) ∧
      (b = false ↔ ∃ f ∈ filesOf (entryPath path_game Data) entriesUnreadable, f.2 = none) ∧
      st1 = writeSections shrZero
        (((filesOf (entryPath path_game Data) entriesUnreadable).takeWhile
            (fun f => f.2.isSome)).map (recordOf 5)) start ∧
      (b = true →
        st1 = writeSections shrZero
          ((filesOf (entryPath path_game Data) entriesUnreadable).map (recordOf 5)) start) :=
  ⟨by decide,
   PackRgssad_walk shrZero 5 entriesUnreadable (entryPath path_game Data) start (by decide)⟩

/-- On the example tree the walk stops at `b.txt`: it returns false having
written the one record of `m\a.txt`, and `c.txt` is not packed. -/
theorem PackRgssad_entriesUnreadable :
    PackRgssad shrZero (entryPath path_game Data) 5 entriesUnreadable start
      = some (false, writeSections shrZero
          [([68, 97, 116, 97, 92, 109, 92, 97, 46, 116, 120, 116], [104, 105])] start) := by
  decide

/-! ## main -/

/-- The run of `main` when the walk of `Data` returns false. -/
theorem main_of_Data_failure (wide : Nat → Nat → Nat) (env : Env) (input_path : List Nat)
    (hargc : 2 ≤ env.argc) (hin : env.input_path = some input_path)
    (hout : env.output_opens = true) (e : Entry) (st : Packer)
    (hd : child env.root Data = some e)
    (hw : PackRgssad.top wide (entryPath input_path Data) (input_path.length + 1) e start
      = some (false, st)) :
    main wide env =
      { exit := some 0, raised := false, walked := [Data], st := st, opened := true,
        closes := 2, removed := true } := by
  have h2 : ¬ env.argc < 2 := by omega
  simp [main, h2, hin, hout, search_directories, main.loop, hd, hw]

/-- The run of `main` when the walk of `Data` returns true and the walk of
`Graphics` returns false. -/
theorem main_of_Graphics_failure (wide : Nat → Nat → Nat) (env : Env) (input_path : List Nat)
    (hargc : 2 ≤ env.argc) (hin : env.input_path = some input_path)
    (hout : env.output_opens = true) (e1 e2 : Entry) (st1 st2 : Packer)
    (hd : child env.root Data = some e1)
    (hw : PackRgssad.top wide (entryPath input_path Data) (input_path.length + 1) e1 start
      = some (true, st1))
    (hg : child env.root Graphics = some e2)
    (hw2 : PackRgssad.top wide (entryPath input_path Graphics) (input_path.length + 1) e2 st1
      = some (false, st2)) :
    main wide env =
      { exit := some 0, raised := false, walked := [Data, Graphics], st := st2, opened := true,
        closes := 2, removed := true } := by
  have h2 : ¬ env.argc < 2 := by omega
  simp [main, h2, hin, hout, search_directories, main.loop, hd, hw, hg, hw2]

/-- The run of `main` when both walks return true. -/
theorem main_of_success (wide : Nat → Nat → Nat) (env : Env) (input_path : List Nat)
    (hargc : 2 ≤ env.argc) (hin : env.input_path = some input_path)
    (hout : env.output_opens = true) (e1 e2 : Entry) (st1 st2 : Packer)
    (hd : child env.root Data = some e1)
    (hw : PackRgssad.top wide (entryPath input_path Data) (input_path.length + 1) e1 start
      = some (true, st1))
    (hg : child env.root Graphics = some e2)
    (hw2 : PackRgssad.top wide (entryPath input_path Graphics) (input_path.length + 1) e2 st1
      = some (true, st2)) :
    main wide env =
      { exit := some 0, raised := false, walked := [Data, Graphics], st := st2, opened := true,
        closes := 1, removed := false } := by
  have h2 : ¬ env.argc < 2 := by omega
  simp [main, h2, hin, hout, search_directories, main.loop, hd, hw, hg, hw2]

/-- The run of `main` when the input directory has no entry `Data`. -/
theorem main_of_Data_missing (wide : Nat → Nat → Nat) (env : Env) (input_path : List Nat)
    (hargc : 2 ≤ env.argc) (hin : env.input_path = some input_path)
    (hout : env.output_opens = true) (hd : child env.root Data = none) :
    main wide env =
      { exit := none, raised := true, walked := [], st := start, opened := true,
        closes := 0, removed := false } := by
  have h2 : ¬ env.argc < 2 := by omega
  simp [main, h2, hin, hout, search_directories, main.loop, hd]

/-- C7, cleanup on packing failure.  In every run of `main` with at least two
arguments, a resolved input path and an opened output file: when `PackRgssad`
returns false for `Data`, `main` walks `Data` only, removes the output file and
returns, so that no file stands at `output_path`; when it returns true for `Data`
and false for `Graphics`, `main` has walked both, removes the output file and
returns. -/
theorem main_cleanup_on_failure (wide : Nat → Nat → Nat) (env : Env) (input_path : List Nat)
    (hargc : 2 ≤ env.argc) (hin : env.input_path = some input_path)
    (hout : env.output_opens = true) :
    (∀ e st, child env.root Data = some e →
      PackRgssad.top wide (entryPath input_path Data) (input_path.length + 1) e start
        = some (false, st) →
      (main wide env).walked = [Data] ∧ (main wide env).removed = true ∧
      (main wide env).file_exists = false ∧ (main wide env).exit.isSome = true ∧
      (main wide env).raised = false) ∧
    (∀ e1 st1 e2 st2, child env.root Data = some e1 →
      PackRgssad.top wide (entryPath input_path Data) (input_path.length + 1) e1 start
        = some (true, st1) →
      child env.root Graphics = some e2 →
      PackRgssad.top wide (entryPath input_path Graphics) (input_path.length + 1) e2 st1
        = some (false, st2) →
      (main wide env).walked = [Data, Graphics] ∧ (main wide env).removed = true ∧
      (main wide env).file_exists = false ∧ (main wide env).exit.isSome = true ∧
      (main wide env).raised = false) := by
  constructor
  · intro e st hd hw
    rw [main_of_Data_failure wide env input_path hargc hin hout e st hd hw]
    exact ⟨rfl, rfl, rfl, rfl, rfl⟩
  · intro e1 st1 e2 st2 hd hw hg hw2
    rw [main_of_Graphics_failure wide env input_path hargc hin hout e1 e2 st1 st2 hd hw hg hw2]
    exact ⟨rfl, rfl, rfl, rfl, rfl⟩

/-- The two runs in which a file of `Data`, and a file of `Graphics`, cannot be
opened. -/
theorem main_cleanup_on_failure_witness :
    ((main shrZero envUnreadable).walked = [Data] ∧
     (main shrZero envUnreadable).removed = true ∧
     (main shrZero envUnreadable).file_exists = false ∧
     (main shrZero envUnreadable).exit.isSome = true ∧
     (main shrZero envUnreadable).raised = false) ∧
    ((main shrZero envUnreadableGraphics).walked = [Data, Graphics] ∧
     (main shrZero envUnreadableGraphics).removed = true ∧
     (main shrZero envUnreadableGraphics).file_exists = false ∧
     (main shrZero envUnreadableGraphics).exit.isSome = true ∧
     (main shrZero envUnreadableGraphics).raised = false) :=
  ⟨(main_cleanup_on_failure shrZero envUnreadable path_game (by decide) rfl rfl).1
      (.dir Data entriesUnreadable)
      (writeSections shrZero
        [([68, 97, 116, 97, 92, 109, 92, 97, 46, 116, 120, 116], [104, 105])] start)
      rfl (by decide),
   (main_cleanup_on_failure shrZero envUnreadableGraphics path_game (by decide) rfl rfl).2
      (.dir Data [.file [97, 46, 116, 120, 116] (some [104, 105])])
      (writeSections shrZero [(path_a_txt, [104, 105])] start)
      (.dir Graphics entriesUnreadable)
      (writeSections shrZero
        [(path_a_txt, [104, 105]),
         ([71, 114, 97, 112, 104, 105, 99, 115, 92, 109, 92, 97, 46, 116, 120, 116],
          [104, 105])] start)
      rfl (by decide) rfl (by decide)⟩

/-- C6 fails on the code.  On an input whose `Data` holds a file that cannot be
opened, `PackRgssad` returns false for `Data`, and `main` returns 0. -/
theorem main_returns_zero_on_failure :
    (∃ st, PackRgssad.top shrZero (entryPath path_game Data) (path_game.length + 1)
        (.dir Data entriesUnreadable) start = some (false, st)) ∧
    2 ≤ envUnreadable.argc ∧ envUnreadable.output_opens = true ∧
    (main shrZero envUnreadable).exit = some 0 :=
  ⟨⟨_, PackRgssad_entriesUnreadable⟩, by decide, rfl, by decide⟩

/-- C8 as stated fails: for the input root that holds only an `Audio` directory,
`main` does not return and leaves no archive made of the 8 magic bytes. -/
theorem main_audio_only_no_archive :
    child envAudioOnly.root Data = none ∧ child envAudioOnly.root Graphics = none ∧
    (main shrZero envAudioOnly).exit = none ∧
    ¬ ((main shrZero envAudioOnly).archive = some header) :=
  ⟨rfl, rfl, by decide, by decide⟩

theorem PackRgssad_top_of_no_files (wide : Nat → Nat → Nat) (input_path dir name : List Nat)
    (children : List Entry) (st : Packer)
    (h : filesOf (entryPath input_path dir) children = []) :
    PackRgssad.top wide (entryPath input_path dir) (input_path.length + 1)
      (.dir name children) st = some (true, st) := by
  rw [PackRgssad.top, PackRgssad_spec wide _ children _ st (by rw [h]; simp), h]
  rfl

/-- C8 amended.  In every run of `main` with at least two arguments, a resolved
input path and an opened output file: when the input directory has `Data` and
`Graphics` subdirectories that hold no regular file at any depth, `main`
returns 0 and leaves an archive of exactly the 8 magic bytes; when it has no
entry `Data`, `main` writes the 8 magic bytes to the stream and is ended there by
the exception of `canonical`: it walks nothing, writes no record, never closes
the stream and returns no exit code. -/
theorem main_header_only (wide : Nat → Nat → Nat) (env : Env) (input_path : List Nat)
    (hargc : 2 ≤ env.argc) (hin : env.input_path = some input_path)
    (hout : env.output_opens = true) :
    (∀ n1 c1 n2 c2, child env.root Data = some (.dir n1 c1) →
      child env.root Graphics = some (.dir n2 c2) →
      filesOf (entryPath input_path Data) c1 = [] →
      filesOf (entryPath input_path Graphics) c2 = [] →
      (main wide env).exit = some 0 ∧ (main wide env).archive = some header) ∧
    (child env.root Data = none →
      (main wide env).exit = none ∧ (main wide env).raised = true ∧
      (main wide env).st.out = header ∧ (main wide env).walked = [] ∧
      (main wide env).closes = 0 ∧ (main wide env).archive = none) := by
  constructor
  · intro n1 c1 n2 c2 hd hg h1 h2
    rw [main_of_success wide env input_path hargc hin hout _ _ start start hd
      (PackRgssad_top_of_no_files wide input_path Data n1 c1 start h1) hg
      (PackRgssad_top_of_no_files wide input_path Graphics n2 c2 start h2)]
    exact ⟨rfl, rfl⟩
  · intro hd
    rw [main_of_Data_missing wide env input_path hargc hin hout hd]
    exact ⟨rfl, rfl, rfl, rfl, rfl, rfl⟩

/-- The run on empty `Data` and `Graphics`, and the run on a root holding only
`Audio`. -/
theorem main_header_only_witness :
    ((main shrZero envEmptyDirs).exit = some 0 ∧
     (main shrZero envEmptyDirs).archive = some header) ∧
    ((main shrZero envAudioOnly).exit = none ∧ (main shrZero envAudioOnly).raised = true ∧
     (main shrZero envAudioOnly).st.out = header ∧ (main shrZero envAudioOnly).walked = [] ∧
     (main shrZero envAudioOnly).closes = 0 ∧ (main shrZero envAudioOnly).archive = none) :=
  ⟨(main_header_only shrZero envEmptyDirs path_game (by decide) rfl rfl).1
      Data [] Graphics [.dir [97] []] rfl rfl rfl rfl,
   (main_header_only shrZero envAudioOnly path_game (by decide) rfl rfl).2 rfl⟩

/-! ## Data bytes beyond the fourth

From index 4 on, `EncryptData` shifts the 32-bit `tmp_key` by `i * 8 ≥ 32`, for
which C++ defines no result.  The byte written is the input byte XORed with the
low byte of that shift, so it is fixed by `wide`: unchanged under `shrZero`,
masked with the rolling key under `shrMod32`. -/

theorem EncryptData_loop_get (wide : Nat → Nat → Nat) (d : List Nat) (hb : IsBytes d)
    (s i k j : Nat) (hk : k = nextKey^[(i - 1) / 4] s) (hj : j < d.length) :
    (EncryptData.loop wide i k d)[j]?
      = some (d[j] ^^^ (shr32 wide (nextKey^[(i + j) / 4] s) (((i + j) * 8) % 2 ^ 64)
          &&& 0xff)) := by
  induction d generalizing i k j with
  | nil => simp at hj
  | cons x xs ih =>
    have hk1 : (if i ≠ 0 ∧ i % 4 = 0 then (7 * k + 3) % 2 ^ 32 else k) = nextKey^[i / 4] s := by
      by_cases hc : i ≠ 0 ∧ i % 4 = 0
      · rw [if_pos hc, hk]
        have e : i / 4 = (i - 1) / 4 + 1 := by omega
        rw [e, Function.iterate_succ_apply']
        rfl
      · rw [if_neg hc, hk]
        have e : (i - 1) / 4 = i / 4 := by omega
        rw [e]
    cases j with
    | zero =>
      simp only [EncryptData.loop, hk1, store_byte hb.head, List.getElem?_cons_zero,
        List.getElem_cons_zero, Nat.add_zero]
    | succ j =>
      have hj2 : j < xs.length := by simpa using hj
      simp only [EncryptData.loop, hk1, List.getElem?_cons_succ, List.getElem_cons_succ]
      rw [ih hb.tail (i + 1) _ j (by rw [Nat.add_sub_cancel]) hj2]
      have e : i + 1 + j = i + (j + 1) := by omega
      rw [e]

/-- Every byte of the output of `EncryptData`: the input byte XORed with the low
byte of `tmp_key >> (j * 8)`, where `tmp_key` has been advanced `j / 4` times. -/
theorem EncryptData_get (wide : Nat → Nat → Nat) (d : List Nat) (hb : IsBytes d)
    (s j : Nat) (hj : j < d.length) :
    (EncryptData wide d s)[j]?
      = some (d[j] ^^^ (shr32 wide (nextKey^[j / 4] s) ((j * 8) % 2 ^ 64) &&& 0xff)) := by
  have h := EncryptData_loop_get wide d hb s 0 s j rfl hj
  rw [Nat.zero_add] at h
  exact h

/-- Where an over-wide shift yields 0, the bytes from index 4 on are unchanged. -/
theorem EncryptData_beyond_four_shrZero (d : List Nat) (hb : IsBytes d) (s j : Nat)
    (hj : j < d.length) (h4 : 4 ≤ j) (h61 : j < 2 ^ 61) :
    (EncryptData shrZero d s)[j]? = some d[j] := by
  rw [EncryptData_get shrZero d hb s j hj]
  have e : (j * 8) % 2 ^ 64 = j * 8 := Nat.mod_eq_of_lt (by omega)
  have h32 : ¬ j * 8 < 32 := by omega
  simp only [e, shr32, if_neg h32, shrZero, Nat.zero_and, Nat.xor_zero]

/-- Where an over-wide shift takes its count modulo 32, every byte is XORed with
byte `j % 4` of the key advanced `j / 4` times. -/
theorem EncryptData_get_shrMod32 (d : List Nat) (hb : IsBytes d) (s j : Nat)
    (hj : j < d.length) (h61 : j < 2 ^ 61) :
    (EncryptData shrMod32 d s)[j]?
      = some (d[j] ^^^ ((nextKey^[j / 4] s >>> (8 * (j % 4))) &&& 0xff)) := by
  rw [EncryptData_get shrMod32 d hb s j hj]
  have e : (j * 8) % 2 ^ 64 = j * 8 := Nat.mod_eq_of_lt (by omega)
  rw [e]
  by_cases h32 : j * 8 < 32
  · have e2 : 8 * (j % 4) = j * 8 := by omega
    simp only [shr32, if_pos h32, e2]
  · have e2 : (j * 8) % 32 = 8 * (j % 4) := by omega
    simp only [shr32, if_neg h32, shrMod32, e2]

/-- With the count taken modulo 32 the fifth byte of a buffer is changed: five
zero bytes masked from `0xDEADCAFE` end in `0xF5`, the low byte of the advanced
key. -/
theorem EncryptData_fifth_byte_shrMod32 :
    (EncryptData shrMod32 [0, 0, 0, 0, 0] KEY0)[4]? = some 0xf5 ∧
    (EncryptData shrZero [0, 0, 0, 0, 0] KEY0)[4]? = some 0 := by
  decide

/-- C4 as stated fails: with the shift count taken modulo 32, five zero bytes
masked from `0xDEADCAFE` do not keep their fifth byte (index 4), which becomes
`0xF5`. -/
theorem EncryptData_fifth_byte_changes :
    4 < [0, 0, 0, 0, 0].length ∧
    ¬ ((EncryptData shrMod32 [0, 0, 0, 0, 0] KEY0)[4]? = [0, 0, 0, 0, 0][4]?) := by
  decide

/-- C4 amended.  For every state `s`, data buffer `d` and index `j` with
`4 ≤ j < |d|` (and `j < 2^61`, so that `j * 8` does not wrap), byte `j` of the
output of `EncryptData` is `d[j]` XORed with the low byte of `tmp_key >> (j * 8)`,
where `tmp_key = nextKey^(j/4)(s)` and the shift is by 32 bits or more, left
undefined by C++ and written `wide`.  Where such a shift yields 0 the byte equals
`d[j]`; where its count is taken modulo 32 the byte is
`d[j] XOR ((nextKey^(j/4)(s) >> (8 * (j mod 4))) AND 0xFF)`. -/
theorem EncryptData_tail_bytes (wide : Nat → Nat → Nat) (s : Nat) (d : List Nat)
    (hb : IsBytes d) (j : Nat) (h4 : 4 ≤ j) (hj : j < d.length) (h61 : j < 2 ^ 61) :
    (EncryptData wide d s)[j]?
      = some (d[j] ^^^ (wide (nextKey^[j / 4] s) (j * 8) &&& 0xff)) ∧
    (EncryptData shrZero d s)[j]? = some d[j] ∧
    (EncryptData shrMod32 d s)[j]?
      = some (d[j] ^^^ ((nextKey^[j / 4] s >>> (8 * (j % 4))) &&& 0xff)) := by
  refine ⟨?_, EncryptData_beyond_four_shrZero d hb s j hj h4 h61,
    EncryptData_get_shrMod32 d hb s j hj h61⟩
  rw [EncryptData_get wide d hb s j hj]
  have e : (j * 8) % 2 ^ 64 = j * 8 := Nat.mod_eq_of_lt (by omega)
  have h32 : ¬ j * 8 < 32 := by omega
  simp only [e, shr32, if_neg h32]

/-- The sixth byte of a six-byte buffer masked from the initial state. -/
theorem EncryptData_tail_bytes_witness :
    (IsBytes [104, 105, 33, 10, 7, 8] ∧ 4 ≤ 5 ∧ 5 < [104, 105, 33, 10, 7, 8].length ∧
      5 < 2 ^ 61) ∧
    ((EncryptData shrMod32 [104, 105, 33, 10, 7, 8] KEY0)[5]?
        = some (8 ^^^ (shrMod32 (nextKey^[5 / 4] KEY0) (5 * 8) &&& 0xff)) ∧
     (EncryptData shrZero [104, 105, 33, 10, 7, 8] KEY0)[5]? = some 8 ∧
     (EncryptData shrMod32 [104, 105, 33, 10, 7, 8] KEY0)[5]?
        = some (8 ^^^ ((nextKey^[5 / 4] KEY0 >>> (8 * (5 % 4))) &&& 0xff))) :=
  ⟨⟨by decide, by decide, by decide, by decide⟩,
   EncryptData_tail_bytes shrMod32 KEY0 [104, 105, 33, 10, 7, 8] (by decide) 5
     (by decide) (by decide) (by decide)⟩

/-! ## The archive of a successful run -/

/-- In `main` the walk of a search directory never leaves by an exception of
`substr`: every path below `input_path\dir` is longer than `trim_size`. -/
theorem PackRgssad_top_dir (wide : Nat → Nat → Nat) (input_path dir name : List Nat)
    (children : List Entry) (st : Packer) :
    PackRgssad.top wide (entryPath input_path dir) (input_path.length + 1)
      (.dir name children) st
      = some (allOpen (filesOf (entryPath input_path dir) children),
              writeSections wide (recordsBeforeFailure (input_path.length + 1)
                (filesOf (entryPath input_path dir) children)) st) := by
  rw [PackRgssad.top]
  apply PackRgssad_spec
  intro f hf
  have := filesOf_path_length children (entryPath input_path dir) f hf
  rw [entryPath_length] at this
  omega

/-- When `Data` and `Graphics` are directories all of whose regular files open,
`main` returns 0 and leaves the archive of the files of `Data` followed by those
of `Graphics`, each in depth-first enumeration order and named relative to the
input path. -/
theorem main_archive_of_success (wide : Nat → Nat → Nat) (env : Env) (input_path : List Nat)
    (hargc : 2 ≤ env.argc) (hin : env.input_path = some input_path)
    (hout : env.output_opens = true) (n1 n2 : List Nat) (c1 c2 : List Entry)
    (hd : child env.root Data = some (.dir n1 c1))
    (hg : child env.root Graphics = some (.dir n2 c2))
    (h1 : allOpen (filesOf (entryPath input_path Data) c1) = true)
    (h2 : allOpen (filesOf (entryPath input_path Graphics) c2) = true) :
    (main wide env).exit = some 0 ∧
    (main wide env).archive = some (archiveOf wide
      ((filesOf (entryPath input_path Data) c1
          ++ filesOf (entryPath input_path Graphics) c2).map
        (recordOf (input_path.length + 1)))) := by
  have hw1 := PackRgssad_top_dir wide input_path Data n1 c1 start
  rw [h1, recordsBeforeFailure_of_open _ _ h1] at hw1
  have hw2 := PackRgssad_top_dir wide input_path Graphics n2 c2
    (writeSections wide
      ((filesOf (entryPath input_path Data) c1).map (recordOf (input_path.length + 1))) start)
  rw [h2, recordsBeforeFailure_of_open _ _ h2] at hw2
  rw [main_of_success wide env input_path hargc hin hout _ _ _ _ hd hw1 hg hw2]
  refine ⟨rfl, ?_⟩
  simp only [Run.archive, Run.file_exists, archiveOf, List.map_append, writeSections_append]
  rfl

/-- The scenario of the format description: the input root holds `Data\a.txt`
with content `hi` and an empty `Graphics`.  `main` leaves the archive of the one
file `Data\a.txt`, and the reader returns that file from it. -/
theorem main_envScenario :
    (main shrZero envScenario).archive = some (archiveOf shrZero [(path_a_txt, [104, 105])]) ∧
    (main shrMod32 envScenario).archive = some (archiveOf shrMod32 [(path_a_txt, [104, 105])]) ∧
    readArchive shrZero (archiveOf shrZero [(path_a_txt, [104, 105])])
      = some [(path_a_txt, [104, 105])] := by
  decide

/-- The loop of `main` sets no exit code. -/
theorem main_loop_exit (wide : Nat → Nat → Nat) (input_path : List Nat) (root : List Entry)
    (trim_size : Nat) (dirs : List (List Nat)) (r : Run) :
    (main.loop wide input_path root trim_size dirs r).exit = r.exit := by
  induction dirs generalizing r with
  | nil => rfl
  | cons dir rest ih =>
    rw [main.loop]
    split
    · rfl
    · split
      · rfl
      · rw [ih]
      · rfl

/-- Once the output file is opened `main` has no path that returns a non-zero
code: it returns 0 or is ended by an exception. -/
theorem main_exit_after_open (wide : Nat → Nat → Nat) (env : Env) (hargc : 2 ≤ env.argc)
    (hout : env.output_opens = true) :
    (main wide env).exit = some 0 ∨ (main wide env).exit = none := by
  have h2 : ¬ env.argc < 2 := by omega
  unfold main
  simp only [h2, if_false, hout]
  cases env.input_path with
  | none => exact Or.inr rfl
  | some input_path =>
    simp only [Bool.true_eq_false, if_false]
    split
    · right
      rw [main_loop_exit]
    · exact Or.inl rfl

end RGSSAD
